import Mathlib

/-!
Shallow embedding of `src/import-check.py` (team-labs/python-import-check).

The Python module has four analysis functions, embedded here under their
source names:

* `get_modules`    — Module Index: distribution file lists → exposed module names;
* `parse_imports` / `parse_import_line` / `parse_file` / `get_imports` —
  Import Extractor over a source tree;
* `traverse_used`  — Dependency Graph Walker (recursive, can diverge on
  cyclic graphs, hence embedded with an explicit fuel parameter: `none`
  models a run that exceeds the given recursion depth);
* `determine_unused` — Unused Resolver.

Python strings are Lean `String`s, but every Python string operation used by
the source (`split` on a one-character separator, `startswith`, `endswith`,
`strip`, `os.path.splitext`) is implemented here on the underlying character
list, mirroring CPython semantics, so that the theorems can reason about
them by list induction.  Python lists are Lean `List`s; `list(set(xs))` is
`xs.dedup`; a Python `dict` is an association list.  The in-place mutation
the source performs (`used = imports` aliases the caller's list, `x += ys`
extends in place, and `traverse_used` returns the very list object it
mutated) is made explicit by threading the lists through the recursions; the
places where aliasing is observable are noted at the definitions.
-/

/-! ### Python string primitives -/

/-- Character-list test that `p` is an initial segment of `s`
(CPython `s.startswith(p)` on the underlying characters). -/
def chPre : List Char → List Char → Bool
  | [], _ => true
  | _ :: _, [] => false
  | a :: ps, b :: ss => a = b && chPre ps ss

/-- Python `s.startswith(p)`. -/
def pyStartsWith (s p : String) : Bool := chPre p.data s.data

/-- Python `s.endswith(p)`. -/
def pyEndsWith (s p : String) : Bool := chPre p.data.reverse s.data.reverse

/-- Python `s.split(c)` for a one-character separator `c`, on character
lists.  Always returns at least one (possibly empty) segment, and keeps the
empty segments between consecutive separators, exactly like CPython. -/
def chSplit (c : Char) : List Char → List (List Char)
  | [] => [[]]
  | a :: rest =>
    match chSplit c rest with
    | [] => [[]]
    | seg :: segs => if a = c then [] :: seg :: segs else (a :: seg) :: segs

/-- Python `s.split(c)` for a one-character separator `c`. -/
def pySplit (s : String) (c : Char) : List String :=
  (chSplit c s.data).map String.mk

/-- Python `s.strip()`: drop whitespace from both ends. -/
def pyStrip (s : String) : String :=
  String.mk (((s.data.dropWhile Char.isWhitespace).reverse.dropWhile Char.isWhitespace).reverse)

/-- Python `l[i]` on a list of strings.  The source only indexes positions
it has just produced by splitting on a separator that is guaranteed to be
present (a line starting with `"import "` or `"from "` contains a space), so
the out-of-range default is never reached by the embedded call sites. -/
def pyIdx (l : List String) (i : Nat) : String := l.getD i ""

/-! ### Import Extractor (`check_line_import`, `parse_imports`,
`parse_import_line`, `parse_file`, `get_imports`) -/

/-- Line classifier: the stripped line must start with the literal
`"import "` or `"from "` (source lines 32–36). -/
def check_line_import (line : String) : Bool :=
  pyStartsWith line "import " || pyStartsWith line "from "

/-- Source lines 39–50: filter out entries starting with `"."`, then those
starting with `"_"`, then keep the first `.`-segment of each survivor. -/
def parse_imports (imports : List String) : List String :=
  ((imports.filter (fun i => !pyStartsWith i ".")).filter
      (fun i => !pyStartsWith i "_")).map
    (fun imp => (pySplit imp '.').headD "")

/-- Source lines 53–62.  Note that in the `else` branch the source takes
`line.split(" ")[1]` — only the first space-delimited token after the
keyword — and splits *that* on commas. -/
def parse_import_line (line : String) : List String :=
  if pyStartsWith line "from" then
    parse_imports [pyIdx (pySplit line ' ') 1]
  else
    parse_imports (pySplit (pyIdx (pySplit line ' ') 1) ',')

/-- Source lines 65–78: a file is its list of lines; each line is stripped,
classified, and parsed, the results concatenated in order. -/
def parse_file : List String → List String
  | [] => []
  | line :: rest =>
    (if check_line_import (pyStrip line) then parse_import_line (pyStrip line) else [])
      ++ parse_file rest

/-- A node of the scanned source tree: a file with its name and lines, or a
directory with its name and entries.  This models the directory structure
that `os.walk` traverses in source lines 88–93. -/
inductive SrcEntry where
  | file (name : String) (lines : List String) : SrcEntry
  | dir (name : String) (entries : List SrcEntry) : SrcEntry

/-- The `os.walk` loop of `get_imports` (source lines 88–93): every `.py`
file is parsed, and a directory whose name is in `excludes` is pruned
together with its whole subtree (`dirs[:] = [d for d in dirs if d not in
excludes]` with `topdown=True` prunes at every level).  `os.walk` yields the
files of a directory before its subdirectories; here the entries are
processed in order, which permutes the concatenation but not the final
deduplicated set. -/
def walkEntries (excludes : List String) : List SrcEntry → List String
  | [] => []
  | SrcEntry.file name lines :: rest =>
    (if pyEndsWith name ".py" then parse_file lines else []) ++ walkEntries excludes rest
  | SrcEntry.dir name entries :: rest =>
    (if name ∈ excludes then [] else walkEntries excludes entries)
      ++ walkEntries excludes rest

/-- Source lines 81–95: walk the tree and return `list(set(imports))`,
modelled as deduplication. -/
def get_imports (tree : List SrcEntry) (excludes : List String) : List String :=
  (walkEntries excludes tree).dedup

/-! ### Module Index (`get_modules`) -/

/-- Index (from the right end, `-1`-based like Python `rfind`) of the last
occurrence of `c` in `cs`, or `-1` when absent. -/
def lastIdxOf (cs : List Char) (c : Char) : Int :=
  (cs.foldl (fun acc ch => (if ch = c then acc.2 else acc.1, acc.2 + 1))
    ((-1 : Int), (0 : Int))).1

/-- The root part of CPython `os.path.splitext(p)` on POSIX: cut at the last
`'.'` when it lies inside the final path component and that component does
not consist solely of dots up to it (a leading-dot file like `".py"` has no
extension). -/
def splitextRoot (p : String) : String :=
  let cs := p.data
  let sepIndex := lastIdxOf cs '/'
  let dotIndex := lastIdxOf cs '.'
  if sepIndex < dotIndex then
    if ((cs.drop (sepIndex + 1).toNat).take (dotIndex - (sepIndex + 1)).toNat).all
        (fun ch => ch = '.') then
      p
    else
      String.mk (cs.take dotIndex.toNat)
  else p

/-- Python `parts[-2]`: the second-to-last element, raising `IndexError`
(`none`) when the list has fewer than two elements. -/
def pySecondLast (l : List String) : Option String :=
  match l.reverse with
  | _ :: x :: _ => some x
  | _ => none

/-- The module index under construction: package key → module-name list,
as an insertion-ordered association list (a Python `dict`). -/
abbrev ModuleDict := List (String × List String)

/-- The source's `modules[dist.key].append(module)` with the
`if not dist.key in modules: modules[dist.key] = []` guard
(source lines 26–28). -/
def dictAppend (m : ModuleDict) (k v : String) : ModuleDict :=
  match m with
  | [] => [(k, [v])]
  | (k0, vs) :: rest =>
    if k0 = k then (k0, vs ++ [v]) :: rest else (k0, vs) :: dictAppend rest k v

/-- One installed distribution as the enumerator delivers it: its normalized
key and the list of its installed file paths. -/
structure PyDist where
  key : String
  files : List String

/-- The per-file body of `get_modules` (source lines 17–28).  `os.sep` is
`'/'` (POSIX), so the `len(parts) == 1` retry with `'/'` re-splits on the
same separator.  Evaluating `parts[-2]` on a single-segment path raises
`IndexError`, modelled by `none`; the `and` in line 24 short-circuits, so
`parts[-2]` is only evaluated when `parts[-1] == '__init__'`. -/
def gmFile (key filename : String) (m : ModuleDict) : Option ModuleDict :=
  if pyEndsWith filename ".py" then
    let parts := pySplit (splitextRoot filename) '/'
    let parts := if parts.length == 1 then pySplit (splitextRoot filename) '/' else parts
    match parts.getLast? with
    | none => none
    | some last =>
      if pyStartsWith last "_" && !pyStartsWith last "__" then some m
      else if last = "__init__" then
        match pySecondLast parts with
        | none => none
        | some second =>
          if second ≠ "tests" then some (dictAppend m key second) else some m
      else some m
  else some m

/-- Fold `gmFile` over the installed files of one distribution. -/
def gmFiles (key : String) : List String → ModuleDict → Option ModuleDict
  | [], m => some m
  | f :: fs, m =>
    match gmFile key f m with
    | none => none
    | some m1 => gmFiles key fs m1

/-- Fold over all distributions. -/
def gmDists : List PyDist → ModuleDict → Option ModuleDict
  | [], m => some m
  | d :: ds, m =>
    match gmFiles d.key d.files m with
    | none => none
    | some m1 => gmDists ds m1

/-- Source lines 9–29 with the installed-distribution enumeration (an
excluded collaborator per the spec) delivered as the `dists` argument.
`none` models the run dying with an uncaught `IndexError`. -/
def get_modules (dists : List PyDist) : Option ModuleDict :=
  gmDists dists []

/-! ### Dependency graph, `traverse_used`, `determine_unused` -/

/-- One record of the dependency graph: its own `package.key` and the `key`
fields of its `dependencies` records. -/
structure Pkg where
  key : String
  deps : List String
deriving DecidableEq

/-- The `for package in graph` loop body of `traverse_used` (source lines
103–110), abstracted over the recursive call `recurse`.  The Python
`dependencies` list is mutated in place: both `dependencies +=
traverse_used(sub_dependencies, graph)` and the following `dependencies +=
sub_dependencies` append the *same* object (the recursive call extends
`sub_dependencies` in place and returns it), hence `deps ++ r ++ r`.  A
matching package with no dependencies returns immediately, abandoning the
rest of the graph. -/
def duTraverseLoop (recurse : List String → Option (List String))
    (deps : List String) : List Pkg → Option (List String)
  | [] => some deps
  | p :: rest =>
    if p.key ∈ deps then
      if p.deps = [] then some deps
      else
        match recurse p.deps with
        | none => none
        | some r => duTraverseLoop recurse (deps ++ r ++ r) rest
    else duTraverseLoop recurse deps rest

/-- Source lines 98–111.  The Python recursion has no termination guard, so
the embedding takes a `fuel` bound on the recursion depth; `none` means the
run exceeded it.  The Python call terminates with result `r` iff
`traverse_used fuel seed graph = some r` for every large enough `fuel`, and
recurses forever iff the result is `none` for every `fuel`. -/
def traverse_used : Nat → List String → List Pkg → Option (List String)
  | 0, _, _ => none
  | fuel + 1, dependencies, graph =>
    duTraverseLoop (fun sub => traverse_used fuel sub graph) dependencies graph

/-- The `for module_name in module_names` loop of `determine_unused`
(source lines 130–139).  The source initializes `used = imports` — an
*alias*, not a copy — so the membership test `module_name in imports` reads
the same growing list that `used.append`/`used +=` extend; the embedding
therefore carries a single `used` list.  As in `duTraverseLoop`, the
`used += traverse_used(dependencies, graph)` and `used += dependencies`
lines append the same mutated object twice (`++ r ++ r`).  Returns the
updated `(unused, used)` pair, or `none` when the walker exceeds `fuel`. -/
def duModuleScan (graph : List Pkg) (fuel : Nat) (key : String)
    (deps : List String) (unused used : List String) :
    List String → Option (List String × List String)
  | [] => some (unused, used)
  | module_name :: rest =>
    if module_name ∈ used then
      if deps = [] then some (unused, used ++ [key])
      else
        match traverse_used fuel deps graph with
        | none => none
        | some r => some (unused, used ++ [key] ++ r ++ r)
    else duModuleScan graph fuel key deps (unused ++ [key]) used rest

/-- The `for package in graph` loop of `determine_unused` (source lines
121–139).  `modules[key]` falls back to `[key]` on `KeyError`
(source lines 125–128). -/
def duPackages (modules : ModuleDict) (graph : List Pkg) (fuel : Nat) :
    List Pkg → List String → List String → Option (List String × List String)
  | [], unused, used => some (unused, used)
  | p :: rest, unused, used =>
    match duModuleScan graph fuel p.key p.deps unused used
        ((List.lookup p.key modules).getD [p.key]) with
    | none => none
    | some (unused1, used1) => duPackages modules graph fuel rest unused1 used1

/-- The full resolver pass, returning the final `(unused, used)` lists
before the last filtering line. -/
def duRun (modules : ModuleDict) (imports : List String) (graph : List Pkg)
    (fuel : Nat) : Option (List String × List String) :=
  duPackages modules graph fuel graph [] imports

/-- Source lines 114–142: the returned value is
`list(set([u for u in unused if u not in set(used)]))`, modelled with
`List.dedup`. -/
def determine_unused (modules : ModuleDict) (imports : List String)
    (graph : List Pkg) (fuel : Nat) : Option (List String) :=
  match duRun modules imports graph fuel with
  | none => none
  | some (unused, used) => some ((unused.filter (fun u => u ∉ used)).dedup)

/-- The content of the caller's `imports` list object after
`determine_unused` returns: because `used = imports` aliases it and every
update is an in-place append, the caller observes the final `used` list. -/
def importsAfter (modules : ModuleDict) (imports : List String)
    (graph : List Pkg) (fuel : Nat) : Option (List String) :=
  (duRun modules imports graph fuel).map (fun st => st.2)

/-! ### Specification-side notions used by the claims -/

/-- Transitive reachability along dependency edges: a key is reachable from
`seed` if it is in `seed`, or is a declared dependency of some graph record
whose key is reachable. -/
inductive Reachable (graph : List Pkg) (seed : List String) : String → Prop where
  | base (k : String) : k ∈ seed → Reachable graph seed k
  | step (p : Pkg) (k : String) : p ∈ graph → Reachable graph seed p.key →
      k ∈ p.deps → Reachable graph seed k

/-- A topological rank certificate: every dependency edge strictly lowers
the rank.  A finite graph admits such a `rank` exactly when it is acyclic. -/
abbrev RankedGraph (graph : List Pkg) (rank : String → Nat) : Prop :=
  ∀ p ∈ graph, ∀ d ∈ p.deps, rank d < rank p.key

/-! ### Lemmas about the string primitives -/

theorem chSplit_ne_nil (c : Char) : ∀ cs, chSplit c cs ≠ [] := by
  intro cs
  induction cs with
  | nil => simp [chSplit]
  | cons a rest ih =>
    simp only [chSplit]
    cases h : chSplit c rest with
    | nil => exact absurd h ih
    | cons seg segs =>
      simp only [h]
      split <;> simp

/-- The first segment of a one-character split cannot start with a
character the whole string does not start with: it is either empty or
starts with the string's own first character. -/
theorem chPre_single_head (c b : Char) (cs : List Char)
    (h : chPre [b] cs = false) :
    chPre [b] ((chSplit c cs).headD []) = false := by
  cases cs with
  | nil => simp [chSplit, chPre]
  | cons a rest =>
    have hne : ¬(b = a) := by
      intro hba
      subst hba
      simp [chPre] at h
    cases hsp : chSplit c rest with
    | nil => exact absurd hsp (chSplit_ne_nil c rest)
    | cons seg segs =>
      simp only [chSplit, hsp]
      by_cases hac : a = c
      · simp [hac, chPre]
      · simp [hac, chPre, hne]

theorem pySplit_headD_data (s : String) (c : Char) :
    ((pySplit s c).headD "").data = (chSplit c s.data).headD [] := by
  unfold pySplit
  cases hsp : chSplit c s.data with
  | nil => exact absurd hsp (chSplit_ne_nil c s.data)
  | cons seg segs => rfl

/-! ### The Import Extractor produces clean entries -/

theorem parse_imports_good (l : List String) (x : String)
    (hx : x ∈ parse_imports l) :
    pyStartsWith x "." = false ∧ pyStartsWith x "_" = false := by
  simp only [parse_imports, List.mem_map, List.mem_filter,
    Bool.not_eq_true'] at hx
  obtain ⟨i, ⟨⟨_, hdot⟩, hund⟩, rfl⟩ := hx
  constructor
  · show chPre ['.'] ((pySplit i '.').headD "").data = false
    rw [pySplit_headD_data]
    exact chPre_single_head '.' '.' i.data hdot
  · show chPre ['_'] ((pySplit i '.').headD "").data = false
    rw [pySplit_headD_data]
    exact chPre_single_head '.' '_' i.data hund

theorem parse_import_line_good (line x : String)
    (hx : x ∈ parse_import_line line) :
    pyStartsWith x "." = false ∧ pyStartsWith x "_" = false := by
  unfold parse_import_line at hx
  split at hx <;> exact parse_imports_good _ x hx

theorem parse_file_good (lines : List String) (x : String)
    (hx : x ∈ parse_file lines) :
    pyStartsWith x "." = false ∧ pyStartsWith x "_" = false := by
  induction lines with
  | nil => simp [parse_file] at hx
  | cons line rest ih =>
    rw [parse_file] at hx
    rcases List.mem_append.mp hx with h1 | h2
    · split at h1
      · exact parse_import_line_good _ x h1
      · simp at h1
    · exact ih h2

theorem walkEntries_mem : ∀ (n : Nat) (tree : List SrcEntry), sizeOf tree ≤ n →
    ∀ (excludes : List String) (x : String), x ∈ walkEntries excludes tree →
      pyStartsWith x "." = false ∧ pyStartsWith x "_" = false := by
  intro n
  induction n using Nat.strong_induction_on with
  | _ n ih =>
    intro tree hsize excludes x hx
    match tree with
    | [] => simp [walkEntries] at hx
    | SrcEntry.file name lines :: rest =>
      have hrest : sizeOf rest < n := by
        simp only [List.cons.sizeOf_spec] at hsize
        omega
      rw [walkEntries] at hx
      rcases List.mem_append.mp hx with h1 | h2
      · split at h1
        · exact parse_file_good lines x h1
        · simp at h1
      · exact ih (sizeOf rest) hrest rest le_rfl excludes x h2
    | SrcEntry.dir name entries :: rest =>
      have hsz : sizeOf entries < n ∧ sizeOf rest < n := by
        simp only [List.cons.sizeOf_spec, SrcEntry.dir.sizeOf_spec] at hsize
        omega
      rw [walkEntries] at hx
      rcases List.mem_append.mp hx with h1 | h2
      · split at h1
        · simp at h1
        · exact ih (sizeOf entries) hsz.1 entries le_rfl excludes x h1
      · exact ih (sizeOf rest) hsz.2 rest le_rfl excludes x h2

/-! ### Fuel monotonicity of the walker -/

theorem duTraverseLoop_mono (rec1 rec2 : List String → Option (List String))
    (hrec : ∀ s r, rec1 s = some r → rec2 s = some r) :
    ∀ (rest : List Pkg) (deps r : List String),
      duTraverseLoop rec1 deps rest = some r →
      duTraverseLoop rec2 deps rest = some r := by
  intro rest
  induction rest with
  | nil =>
    intro deps r h
    simpa only [duTraverseLoop] using h
  | cons p rest ih =>
    intro deps r h
    simp only [duTraverseLoop] at h ⊢
    by_cases hpk : p.key ∈ deps
    · simp only [if_pos hpk] at h ⊢
      by_cases hd : p.deps = []
      · simp only [if_pos hd] at h ⊢
        exact h
      · simp only [if_neg hd] at h ⊢
        cases hr : rec1 p.deps with
        | none => rw [hr] at h; simp at h
        | some r0 =>
          rw [hr] at h
          rw [hrec p.deps r0 hr]
          exact ih _ r h
    · simp only [if_neg hpk] at h ⊢
      exact ih _ r h

theorem traverse_used_mono_succ (graph : List Pkg) :
    ∀ (fuel : Nat) (s r : List String), traverse_used fuel s graph = some r →
      traverse_used (fuel + 1) s graph = some r := by
  intro fuel
  induction fuel with
  | zero =>
    intro s r h
    simp [traverse_used] at h
  | succ f ih =>
    intro s r h
    simp only [traverse_used] at h ⊢
    exact duTraverseLoop_mono _ _ (fun s2 r2 h2 => ih s2 r2 h2) graph s r h

theorem traverse_used_mono_le (graph : List Pkg) (f1 f2 : Nat) (hle : f1 ≤ f2) :
    ∀ s r, traverse_used f1 s graph = some r → traverse_used f2 s graph = some r := by
  induction hle with
  | refl => exact fun s r h => h
  | step _ ih =>
    intro s r h
    exact traverse_used_mono_succ graph _ s r (ih s r h)

/-! ### The walker's result contains its seed and only reachable keys -/

theorem duTraverseLoop_sub (recurse : List String → Option (List String)) :
    ∀ (rest : List Pkg) (deps r : List String),
      duTraverseLoop recurse deps rest = some r → ∀ k ∈ deps, k ∈ r := by
  intro rest
  induction rest with
  | nil =>
    intro deps r h k hk
    simp only [duTraverseLoop] at h
    obtain rfl := Option.some.inj h
    exact hk
  | cons p rest ih =>
    intro deps r h k hk
    simp only [duTraverseLoop] at h
    by_cases hpk : p.key ∈ deps
    · simp only [if_pos hpk] at h
      by_cases hd : p.deps = []
      · simp only [if_pos hd] at h
        obtain rfl := Option.some.inj h
        exact hk
      · simp only [if_neg hd] at h
        cases hr : recurse p.deps with
        | none => rw [hr] at h; simp at h
        | some r0 =>
          rw [hr] at h
          exact ih _ r h k (by simp [hk])
    · simp only [if_neg hpk] at h
      exact ih _ r h k hk

theorem traverse_used_sub (fuel : Nat) (s : List String) (graph : List Pkg)
    (r : List String) (h : traverse_used fuel s graph = some r) :
    ∀ k ∈ s, k ∈ r := by
  cases fuel with
  | zero => simp [traverse_used] at h
  | succ f =>
    simp only [traverse_used] at h
    exact duTraverseLoop_sub _ graph s r h

theorem Reachable_trans (graph : List Pkg) (s1 s2 : List String) (k : String)
    (hs : ∀ j ∈ s2, Reachable graph s1 j) (h : Reachable graph s2 k) :
    Reachable graph s1 k := by
  induction h with
  | base k hk => exact hs k hk
  | step p k hp _ hd ih => exact Reachable.step p k hp ih hd

theorem duTraverseLoop_reach (graph : List Pkg) (seed : List String) (f : Nat)
    (ihf : ∀ s r, traverse_used f s graph = some r →
        ∀ k ∈ r, Reachable graph s k) :
    ∀ (rest : List Pkg), (∀ p ∈ rest, p ∈ graph) →
      ∀ (deps r : List String), (∀ k ∈ deps, Reachable graph seed k) →
        duTraverseLoop (fun sub => traverse_used f sub graph) deps rest = some r →
        ∀ k ∈ r, Reachable graph seed k := by
  intro rest
  induction rest with
  | nil =>
    intro _ deps r hdeps h k hk
    simp only [duTraverseLoop] at h
    obtain rfl := Option.some.inj h
    exact hdeps k hk
  | cons p rest ih =>
    intro hsub deps r hdeps h k hk
    have hpg : p ∈ graph := hsub p (List.mem_cons_self p rest)
    have hsub2 : ∀ q ∈ rest, q ∈ graph := fun q hq => hsub q (List.mem_cons_of_mem p hq)
    simp only [duTraverseLoop] at h
    by_cases hpk : p.key ∈ deps
    · simp only [if_pos hpk] at h
      by_cases hd : p.deps = []
      · simp only [if_pos hd] at h
        obtain rfl := Option.some.inj h
        exact hdeps k hk
      · simp only [if_neg hd] at h
        cases hr : traverse_used f p.deps graph with
        | none => rw [hr] at h; simp at h
        | some r0 =>
          rw [hr] at h
          have hr0 : ∀ j ∈ r0, Reachable graph seed j := by
            intro j hj
            refine Reachable_trans graph seed p.deps j ?_ (ihf p.deps r0 hr j hj)
            intro d hd2
            exact Reachable.step p d hpg (hdeps p.key hpk) hd2
          refine ih hsub2 _ r ?_ h k hk
          intro j hj
          simp only [List.mem_append] at hj
          rcases hj with (hj | hj) | hj
          · exact hdeps j hj
          · exact hr0 j hj
          · exact hr0 j hj
    · simp only [if_neg hpk] at h
      exact ih hsub2 _ r hdeps h k hk

theorem traverse_used_reach :
    ∀ (fuel : Nat) (graph : List Pkg) (s r : List String),
      traverse_used fuel s graph = some r → ∀ k ∈ r, Reachable graph s k := by
  intro fuel
  induction fuel with
  | zero =>
    intro graph s r h
    simp [traverse_used] at h
  | succ f ih =>
    intro graph s r h
    simp only [traverse_used] at h
    exact duTraverseLoop_reach graph s f (fun s2 r2 h2 => ih graph s2 r2 h2)
      graph (fun p hp => hp) s r (fun k hk => Reachable.base k hk) h

/-! ### Rank bounds and termination on ranked (acyclic) graphs -/

theorem duTraverseLoop_rank (graph : List Pkg) (rank : String → Nat)
    (hg : RankedGraph graph rank) (f : Nat)
    (ihf : ∀ s r c, (∀ k ∈ s, rank k < c) → traverse_used f s graph = some r →
        ∀ k ∈ r, rank k < c) :
    ∀ (rest : List Pkg), (∀ p ∈ rest, p ∈ graph) →
      ∀ (deps r : List String) (c : Nat), (∀ k ∈ deps, rank k < c) →
        duTraverseLoop (fun sub => traverse_used f sub graph) deps rest = some r →
        ∀ k ∈ r, rank k < c := by
  intro rest
  induction rest with
  | nil =>
    intro _ deps r c hdeps h k hk
    simp only [duTraverseLoop] at h
    obtain rfl := Option.some.inj h
    exact hdeps k hk
  | cons p rest ih =>
    intro hsub deps r c hdeps h k hk
    have hpg : p ∈ graph := hsub p (List.mem_cons_self p rest)
    have hsub2 : ∀ q ∈ rest, q ∈ graph := fun q hq => hsub q (List.mem_cons_of_mem p hq)
    simp only [duTraverseLoop] at h
    by_cases hpk : p.key ∈ deps
    · simp only [if_pos hpk] at h
      by_cases hd : p.deps = []
      · simp only [if_pos hd] at h
        obtain rfl := Option.some.inj h
        exact hdeps k hk
      · simp only [if_neg hd] at h
        cases hr : traverse_used f p.deps graph with
        | none => rw [hr] at h; simp at h
        | some r0 =>
          rw [hr] at h
          have hr0 : ∀ j ∈ r0, rank j < c := by
            refine ihf p.deps r0 c ?_ hr
            intro d hd2
            exact lt_trans (hg p hpg d hd2) (hdeps p.key hpk)
          refine ih hsub2 _ r c ?_ h k hk
          intro j hj
          simp only [List.mem_append] at hj
          rcases hj with (hj | hj) | hj
          · exact hdeps j hj
          · exact hr0 j hj
          · exact hr0 j hj
    · simp only [if_neg hpk] at h
      exact ih hsub2 _ r c hdeps h k hk

theorem traverse_used_rank :
    ∀ (fuel : Nat) (graph : List Pkg) (rank : String → Nat),
      RankedGraph graph rank → ∀ (s r : List String) (c : Nat),
        (∀ k ∈ s, rank k < c) → traverse_used fuel s graph = some r →
        ∀ k ∈ r, rank k < c := by
  intro fuel
  induction fuel with
  | zero =>
    intro graph rank _ s r c _ h
    simp [traverse_used] at h
  | succ f ih =>
    intro graph rank hg s r c hs h
    simp only [traverse_used] at h
    exact duTraverseLoop_rank graph rank hg f
      (fun s2 r2 c2 hs2 h2 => ih graph rank hg s2 r2 c2 hs2 h2)
      graph (fun p hp => hp) s r c hs h

theorem duTraverseLoop_total (graph : List Pkg) (rank : String → Nat)
    (hg : RankedGraph graph rank) (b f : Nat) (hbf : b ≤ f)
    (ihb : ∀ b2 < b, ∀ fuel, b2 + 1 ≤ fuel → ∀ s, (∀ k ∈ s, rank k < b2) →
        (traverse_used fuel s graph).isSome = true) :
    ∀ (rest : List Pkg), (∀ p ∈ rest, p ∈ graph) →
      ∀ (deps : List String), (∀ k ∈ deps, rank k < b) →
        (duTraverseLoop (fun sub => traverse_used f sub graph) deps rest).isSome
          = true := by
  intro rest
  induction rest with
  | nil =>
    intro _ deps _
    simp [duTraverseLoop]
  | cons p rest ih =>
    intro hsub deps hdeps
    have hpg : p ∈ graph := hsub p (List.mem_cons_self p rest)
    have hsub2 : ∀ q ∈ rest, q ∈ graph := fun q hq => hsub q (List.mem_cons_of_mem p hq)
    simp only [duTraverseLoop]
    by_cases hpk : p.key ∈ deps
    · simp only [if_pos hpk]
      by_cases hd : p.deps = []
      · simp only [if_pos hd, Option.isSome_some]
      · simp only [if_neg hd]
        have hseed : ∀ d ∈ p.deps, rank d < rank p.key := fun d hd2 => hg p hpg d hd2
        have hfuel : rank p.key + 1 ≤ f := by
          have := hdeps p.key hpk
          omega
        have hsome := ihb (rank p.key) (hdeps p.key hpk) f hfuel p.deps hseed
        cases hr : traverse_used f p.deps graph with
        | none => rw [hr] at hsome; simp at hsome
        | some r0 =>
          have hr0 : ∀ j ∈ r0, rank j < rank p.key :=
            traverse_used_rank f graph rank hg p.deps r0 (rank p.key) hseed hr
          refine ih hsub2 (deps ++ r0 ++ r0) ?_
          intro j hj
          simp only [List.mem_append] at hj
          rcases hj with (hj | hj) | hj
          · exact hdeps j hj
          · exact lt_trans (hr0 j hj) (hdeps p.key hpk)
          · exact lt_trans (hr0 j hj) (hdeps p.key hpk)
    · simp only [if_neg hpk]
      exact ih hsub2 deps hdeps

theorem traverse_used_total (graph : List Pkg) (rank : String → Nat)
    (hg : RankedGraph graph rank) :
    ∀ (b fuel : Nat), b + 1 ≤ fuel → ∀ s, (∀ k ∈ s, rank k < b) →
      (traverse_used fuel s graph).isSome = true := by
  intro b
  induction b using Nat.strong_induction_on with
  | _ b ihb =>
    intro fuel hfuel s hs
    obtain ⟨f, rfl⟩ : ∃ f, fuel = f + 1 := ⟨fuel - 1, by omega⟩
    simp only [traverse_used]
    exact duTraverseLoop_total graph rank hg b f (by omega) ihb
      graph (fun p hp => hp) s hs

/-- Each seed key's rank is at most the running maximum of the seed list. -/
theorem rank_le_foldr_max (rank : String → Nat) :
    ∀ (l : List String) (k : String), k ∈ l →
      rank k ≤ (l.map rank).foldr max 0 := by
  intro l
  induction l with
  | nil => intro k hk; simp at hk
  | cons a l ih =>
    intro k hk
    rcases List.mem_cons.mp hk with rfl | hk2
    · simp [le_max_iff]
    · simp only [List.map_cons, List.foldr_cons, le_max_iff]
      exact Or.inr (ih k hk2)

/-- On the one-record cyclic graph whose package depends on itself, the
recursion never returns: it exceeds every fuel bound. -/
theorem traverse_used_cyclic_diverges :
    ∀ fuel, traverse_used fuel ["a"] [Pkg.mk "a" ["a"]] = none := by
  intro fuel
  induction fuel with
  | zero => rfl
  | succ f ih => simp [traverse_used, duTraverseLoop, ih]

/-! ### Lemmas about the resolver loops -/

theorem duModuleScan_mono (graph : List Pkg) (f1 f2 : Nat) (hle : f1 ≤ f2)
    (key : String) (deps : List String) :
    ∀ (mods unused used : List String) (st : List String × List String),
      duModuleScan graph f1 key deps unused used mods = some st →
      duModuleScan graph f2 key deps unused used mods = some st := by
  intro mods
  induction mods with
  | nil =>
    intro unused used st h
    exact h
  | cons m rest ih =>
    intro unused used st h
    simp only [duModuleScan] at h ⊢
    by_cases hm : m ∈ used
    · simp only [if_pos hm] at h ⊢
      by_cases hd : deps = []
      · simp only [if_pos hd] at h ⊢
        exact h
      · simp only [if_neg hd] at h ⊢
        cases hr : traverse_used f1 deps graph with
        | none => rw [hr] at h; simp at h
        | some r =>
          rw [hr] at h
          rw [traverse_used_mono_le graph f1 f2 hle deps r hr]
          exact h
    · simp only [if_neg hm] at h ⊢
      exact ih _ used st h

theorem duPackages_mono (modules : ModuleDict) (graph : List Pkg)
    (f1 f2 : Nat) (hle : f1 ≤ f2) :
    ∀ (rest : List Pkg) (unused used : List String)
      (st : List String × List String),
      duPackages modules graph f1 rest unused used = some st →
      duPackages modules graph f2 rest unused used = some st := by
  intro rest
  induction rest with
  | nil =>
    intro unused used st h
    exact h
  | cons p rest ih =>
    intro unused used st h
    simp only [duPackages] at h ⊢
    cases hs : duModuleScan graph f1 p.key p.deps unused used
        ((List.lookup p.key modules).getD [p.key]) with
    | none => rw [hs] at h; simp at h
    | some st1 =>
      obtain ⟨u1, us1⟩ := st1
      rw [hs] at h
      rw [duModuleScan_mono graph f1 f2 hle p.key p.deps _ unused used (u1, us1) hs]
      exact ih u1 us1 st h

theorem determine_unused_mono (modules : ModuleDict) (imports : List String)
    (graph : List Pkg) (f1 f2 : Nat) (hle : f1 ≤ f2) (u : List String)
    (h : determine_unused modules imports graph f1 = some u) :
    determine_unused modules imports graph f2 = some u := by
  unfold determine_unused duRun at h ⊢
  cases hs : duPackages modules graph f1 graph [] imports with
  | none => rw [hs] at h; simp at h
  | some st =>
    obtain ⟨u1, us1⟩ := st
    rw [hs] at h
    rw [duPackages_mono modules graph f1 f2 hle graph [] imports (u1, us1) hs]
    exact h

/-- The `used` list only ever grows by appends during the module scan. -/
theorem duModuleScan_extends (graph : List Pkg) (fuel : Nat) (key : String)
    (deps : List String) :
    ∀ (mods unused used u2 us2 : List String),
      duModuleScan graph fuel key deps unused used mods = some (u2, us2) →
      ∃ t, us2 = used ++ t := by
  intro mods
  induction mods with
  | nil =>
    intro unused used u2 us2 h
    simp only [duModuleScan, Option.some.injEq, Prod.mk.injEq] at h
    exact ⟨[], by simp [h.2]⟩
  | cons m rest ih =>
    intro unused used u2 us2 h
    simp only [duModuleScan] at h
    by_cases hm : m ∈ used
    · simp only [if_pos hm] at h
      by_cases hd : deps = []
      · simp only [if_pos hd, Option.some.injEq, Prod.mk.injEq] at h
        exact ⟨[key], by simp [h.2]⟩
      · simp only [if_neg hd] at h
        cases hr : traverse_used fuel deps graph with
        | none => rw [hr] at h; simp at h
        | some r =>
          rw [hr] at h
          simp only [Option.some.injEq, Prod.mk.injEq] at h
          exact ⟨[key] ++ r ++ r, by rw [← h.2]; simp [List.append_assoc]⟩
    · simp only [if_neg hm] at h
      exact ih _ used u2 us2 h

/-- The `used` list only ever grows by appends across the package loop. -/
theorem duPackages_extends (modules : ModuleDict) (graph : List Pkg) (fuel : Nat) :
    ∀ (rest : List Pkg) (unused used u2 us2 : List String),
      duPackages modules graph fuel rest unused used = some (u2, us2) →
      ∃ t, us2 = used ++ t := by
  intro rest
  induction rest with
  | nil =>
    intro unused used u2 us2 h
    simp only [duPackages, Option.some.injEq, Prod.mk.injEq] at h
    exact ⟨[], by simp [h.2]⟩
  | cons p rest ih =>
    intro unused used u2 us2 h
    simp only [duPackages] at h
    cases hs : duModuleScan graph fuel p.key p.deps unused used
        ((List.lookup p.key modules).getD [p.key]) with
    | none => rw [hs] at h; simp at h
    | some st1 =>
      obtain ⟨u1, us1⟩ := st1
      rw [hs] at h
      obtain ⟨t1, ht1⟩ := duModuleScan_extends graph fuel p.key p.deps _ unused used u1 us1 hs
      obtain ⟨t2, ht2⟩ := ih u1 us1 u2 us2 h
      exact ⟨t1 ++ t2, by simp [ht2, ht1, List.append_assoc]⟩

/-- Every entry of the `unused` accumulator after one module scan was
already there, or is the scanned package's own key. -/
theorem duModuleScan_unused_sub (graph : List Pkg) (fuel : Nat) (key : String)
    (deps : List String) :
    ∀ (mods unused used u2 us2 : List String),
      duModuleScan graph fuel key deps unused used mods = some (u2, us2) →
      ∀ x ∈ u2, x ∈ unused ∨ x = key := by
  intro mods
  induction mods with
  | nil =>
    intro unused used u2 us2 h x hx
    simp only [duModuleScan, Option.some.injEq, Prod.mk.injEq] at h
    exact Or.inl (h.1 ▸ hx)
  | cons m rest ih =>
    intro unused used u2 us2 h x hx
    simp only [duModuleScan] at h
    by_cases hm : m ∈ used
    · simp only [if_pos hm] at h
      by_cases hd : deps = []
      · simp only [if_pos hd, Option.some.injEq, Prod.mk.injEq] at h
        exact Or.inl (h.1 ▸ hx)
      · simp only [if_neg hd] at h
        cases hr : traverse_used fuel deps graph with
        | none => rw [hr] at h; simp at h
        | some r =>
          rw [hr] at h
          simp only [Option.some.injEq, Prod.mk.injEq] at h
          exact Or.inl (h.1 ▸ hx)
    · simp only [if_neg hm] at h
      rcases ih _ used u2 us2 h x hx with hx2 | hx2
      · rcases List.mem_append.mp hx2 with hx3 | hx3
        · exact Or.inl hx3
        · exact Or.inr (List.mem_singleton.mp hx3)
      · exact Or.inr hx2

/-- A key whose module-name list in the index is empty is never appended to
the `unused` accumulator: its own record scans zero module names, and every
other record appends only its own (different or equally-empty) key. -/
theorem duPackages_no_empty_key (modules : ModuleDict) (graph : List Pkg)
    (fuel : Nat) (k : String) (hk : List.lookup k modules = some []) :
    ∀ (rest : List Pkg) (unused used u2 us2 : List String),
      duPackages modules graph fuel rest unused used = some (u2, us2) →
      k ∉ unused → k ∉ u2 := by
  intro rest
  induction rest with
  | nil =>
    intro unused used u2 us2 h hnot
    simp only [duPackages, Option.some.injEq, Prod.mk.injEq] at h
    exact h.1 ▸ hnot
  | cons p rest ih =>
    intro unused used u2 us2 h hnot
    simp only [duPackages] at h
    by_cases hpk : p.key = k
    · rw [hpk, hk] at h
      simp only [Option.getD_some] at h
      exact ih unused used u2 us2 h hnot
    · cases hs : duModuleScan graph fuel p.key p.deps unused used
          ((List.lookup p.key modules).getD [p.key]) with
      | none => rw [hs] at h; simp at h
      | some st1 =>
        obtain ⟨u1, us1⟩ := st1
        rw [hs] at h
        refine ih u1 us1 u2 us2 h ?_
        intro hku1
        rcases duModuleScan_unused_sub graph fuel p.key p.deps _ unused used u1 us1 hs
            k hku1 with hx | hx
        · exact hnot hx
        · exact hpk hx.symm

/-! ### The claims -/

/-- C1: with import set `{"requests"}`, module index `requests ↦ [requests]`,
`six ↦ [six]`, `urllib3 ↦ [urllib3]`, and the three-record graph in which
`requests` depends on `urllib3`, `determine_unused` returns exactly
`{"six"}`: `requests` is directly used, `urllib3` is pulled in transitively
by the walker, and `six` is neither.  (The walker's recursion-depth budget
`fuel` is an artifact of the embedding; any positive budget suffices on
this graph.) -/
theorem c1_end_to_end (fuel : Nat) (hfuel : 1 ≤ fuel) :
    determine_unused
      [("requests", ["requests"]), ("six", ["six"]), ("urllib3", ["urllib3"])]
      ["requests"]
      [⟨"requests", ["urllib3"]⟩, ⟨"six", []⟩, ⟨"urllib3", []⟩] fuel
      = some ["six"] :=
  determine_unused_mono _ _ _ 1 fuel hfuel _ (by decide)

/-- Witness for C1 at the concrete budget `1`. -/
theorem c1_end_to_end_witness :
    determine_unused
      [("requests", ["requests"]), ("six", ["six"]), ("urllib3", ["urllib3"])]
      ["requests"]
      [⟨"requests", ["urllib3"]⟩, ⟨"six", []⟩, ⟨"urllib3", []⟩] 1
      = some ["six"] :=
  c1_end_to_end 1 (by decide)

/-- C2 counterexample: the claim says the walker's result set equals the
seed set unioned with everything transitively reachable from it.  On the
graph `[a ↦ [], b ↦ [c], c ↦ []]` with seeds `{a, b}`, the first matching
record `a` has no dependencies, so the source's `return dependencies`
aborts the whole loop: the result is `["a", "b"]`, although `c` is
reachable from the seed `b`. -/
theorem c2_counterexample :
    traverse_used 5 ["a", "b"] [⟨"a", []⟩, ⟨"b", ["c"]⟩, ⟨"c", []⟩]
      = some ["a", "b"]
    ∧ Reachable [⟨"a", []⟩, ⟨"b", ["c"]⟩, ⟨"c", []⟩] ["a", "b"] "c"
    ∧ "c" ∉ (["a", "b"] : List String) := by
  refine ⟨by decide, ?_, by decide⟩
  refine Reachable.step ⟨"b", ["c"]⟩ "c" ?_ ?_ ?_
  · exact List.mem_cons_of_mem _ (List.mem_cons_self _ _)
  · exact Reachable.base "b" (List.mem_cons_of_mem _ (List.mem_cons_self _ _))
  · exact List.mem_cons_self _ _

/-- C2 (amended): whenever `traverse_used` returns, its result contains
every seed key and only keys that are in the seed set or transitively
reachable from it; the converse inclusion can fail, because a seeded
package with an empty dependency list returns early and abandons the rest
of the graph. -/
theorem c2_amended (graph : List Pkg) (seed : List String) (fuel : Nat)
    (r : List String) (h : traverse_used fuel seed graph = some r) :
    (∀ k ∈ seed, k ∈ r) ∧ (∀ k ∈ r, Reachable graph seed k) :=
  ⟨traverse_used_sub fuel seed graph r h, traverse_used_reach fuel graph seed r h⟩

/-- Witness for the amended C2 on the chain `a ↦ [b], b ↦ []`. -/
theorem c2_amended_witness :
    ("a" : String) ∈ (["a", "b", "b"] : List String)
    ∧ Reachable [⟨"a", ["b"]⟩, ⟨"b", []⟩] ["a"] "b" :=
  ⟨(c2_amended [⟨"a", ["b"]⟩, ⟨"b", []⟩] ["a"] 2 ["a", "b", "b"] (by decide)).1
      "a" (by decide),
   (c2_amended [⟨"a", ["b"]⟩, ⟨"b", []⟩] ["a"] 2 ["a", "b", "b"] (by decide)).2
      "b" (by decide)⟩

/-- C3 counterexample: the claim says `determine_unused` copies the import
set, leaving the caller's argument unchanged.  In the source, `used =
imports` merely aliases it, and the appends are in place: on the C1 inputs
the caller's one-element import list has grown to five elements by the
time `determine_unused` returns. -/
theorem c3_counterexample :
    importsAfter
        [("requests", ["requests"]), ("six", ["six"]), ("urllib3", ["urllib3"])]
        ["requests"]
        [⟨"requests", ["urllib3"]⟩, ⟨"six", []⟩, ⟨"urllib3", []⟩] 1
      = some ["requests", "requests", "urllib3", "urllib3", "urllib3"]
    ∧ (["requests", "requests", "urllib3", "urllib3", "urllib3"] : List String)
      ≠ ["requests"] :=
  ⟨by decide, by decide⟩

/-- C3 (amended): `determine_unused` initializes its used-accumulator as an
in-place *alias* of the import list, not a copy; the caller's list is
mutated by appends only, so after the call it is the original list extended
by the entries recorded as used (and is unchanged only when nothing was
appended). -/
theorem c3_amended (modules : ModuleDict) (imports : List String)
    (graph : List Pkg) (fuel : Nat) (l : List String)
    (h : importsAfter modules imports graph fuel = some l) :
    ∃ t, l = imports ++ t := by
  unfold importsAfter duRun at h
  cases hs : duPackages modules graph fuel graph [] imports with
  | none => rw [hs] at h; simp at h
  | some st =>
    obtain ⟨u1, us1⟩ := st
    rw [hs] at h
    simp only [Option.map_some', Option.some.injEq] at h
    subst h
    exact duPackages_extends modules graph fuel graph [] imports u1 us1 hs

/-- Witness for the amended C3 at the C1 inputs. -/
theorem c3_amended_witness :
    ∃ t, (["requests", "requests", "urllib3", "urllib3", "urllib3"] : List String)
      = ["requests"] ++ t :=
  c3_amended
    [("requests", ["requests"]), ("six", ["six"]), ("urllib3", ["urllib3"])]
    ["requests"]
    [⟨"requests", ["urllib3"]⟩, ⟨"six", []⟩, ⟨"urllib3", []⟩] 1
    ["requests", "requests", "urllib3", "urllib3", "urllib3"] (by decide)

/-- C4: on every graph admitting a topological rank (equivalently, every
acyclic graph), `traverse_used` terminates on any seed set — some finite
recursion-depth budget returns `some`; and on the cyclic one-record graph
whose package `a` depends on itself, the recursion exceeds every budget,
i.e. the source recurses forever. -/
theorem c4_termination :
    (∀ (graph : List Pkg) (rank : String → Nat), RankedGraph graph rank →
        ∀ seed : List String, ∃ fuel, (traverse_used fuel seed graph).isSome = true)
    ∧ ∀ fuel, traverse_used fuel ["a"] [Pkg.mk "a" ["a"]] = none := by
  constructor
  · intro graph rank hg seed
    refine ⟨(seed.map rank).foldr max 0 + 1 + 1, ?_⟩
    refine traverse_used_total graph rank hg ((seed.map rank).foldr max 0 + 1) _
      le_rfl seed ?_
    intro k hk
    have := rank_le_foldr_max rank seed k hk
    omega
  · exact traverse_used_cyclic_diverges

/-- Witness for C4: the acyclic half at the ranked two-record chain
`a ↦ [b], b ↦ []`, the cyclic half at budget `3`. -/
theorem c4_termination_witness :
    (∃ fuel, (traverse_used fuel ["a"] [⟨"a", ["b"]⟩, ⟨"b", []⟩]).isSome = true)
    ∧ traverse_used 3 ["a"] [Pkg.mk "a" ["a"]] = none :=
  ⟨c4_termination.1 [⟨"a", ["b"]⟩, ⟨"b", []⟩]
      (fun k => if k = "a" then 1 else 0) (by decide) ["a"],
   c4_termination.2 3⟩

/-- C5: the claim (and the source's own comment) expect
`import a, b as c` to contribute `{a, b}`.  The source only splits
`line.split(" ")[1]` — the token `"a,"` — on commas, so the line actually
contributes `["a", ""]`: `b` is lost and a spurious empty entry appears. -/
theorem c5_comma_space_split :
    parse_import_line "import a, b as c" = ["a", ""]
    ∧ "b" ∉ parse_import_line "import a, b as c" :=
  ⟨by decide, by decide⟩

/-- C6 counterexample: the claim says a package whose key maps to an empty
module-name list ends up in the unused output unless rescued.  With module
index `p ↦ []`, empty import set, and the single-record graph `[p ↦ []]`
(so nothing can rescue `p`), the resolver returns the empty list: the
zero-iteration module loop never marks `p` provisionally unused at all. -/
theorem c6_counterexample :
    determine_unused [("p", [])] [] [⟨"p", []⟩] 1 = some []
    ∧ ("p" : String) ∉ ([] : List String) :=
  ⟨by decide, by decide⟩

/-- C6 (amended): for every package key mapped to an empty module-name list
by the index, zero per-module checks run, so the key is never marked
provisionally unused and never appears in `determine_unused`'s output —
rescued or not. -/
theorem c6_amended (modules : ModuleDict) (imports : List String)
    (graph : List Pkg) (fuel : Nat) (k : String) (u : List String)
    (hk : List.lookup k modules = some [])
    (h : determine_unused modules imports graph fuel = some u) : k ∉ u := by
  unfold determine_unused duRun at h
  cases hs : duPackages modules graph fuel graph [] imports with
  | none => rw [hs] at h; simp at h
  | some st =>
    obtain ⟨u1, us1⟩ := st
    rw [hs] at h
    simp only [Option.some.injEq] at h
    subst h
    intro hku
    rw [List.mem_dedup, List.mem_filter] at hku
    exact duPackages_no_empty_key modules graph fuel k hk graph [] imports u1 us1 hs
      (by simp) hku.1

/-- Witness for the amended C6 at the counterexample input. -/
theorem c6_amended_witness : ("p" : String) ∉ ([] : List String) :=
  c6_amended [("p", [])] [] [⟨"p", []⟩] 1 "p" [] (by decide) (by decide)

/-- C7: for every source tree and exclusion list, the extractor's output
contains no entry starting with `"."`, none starting with `"_"`, and no
duplicates. -/
theorem c7_extractor_clean (tree : List SrcEntry) (excludes : List String) :
    (∀ x ∈ get_imports tree excludes,
        pyStartsWith x "." = false ∧ pyStartsWith x "_" = false)
    ∧ (get_imports tree excludes).Nodup := by
  constructor
  · intro x hx
    simp only [get_imports, List.mem_dedup] at hx
    exact walkEntries_mem (sizeOf tree) tree le_rfl excludes x hx
  · exact List.nodup_dedup _

/-- C8: for a distribution with key `foo` installing `foo/__init__.py`,
`foo/_internal.py` and `foo/tests/__init__.py`, the module index maps `foo`
to exactly `["foo"]`: the `_internal` file is skipped as private and the
`tests/__init__.py` entry is skipped because its parent directory is
`tests`. -/
theorem c8_module_index :
    get_modules
      [⟨"foo", ["foo/__init__.py", "foo/_internal.py", "foo/tests/__init__.py"]⟩]
      = some [("foo", ["foo"])] := by decide

/-- C9: resolution is deterministic at the set level — two runs of
`determine_unused` on identical inputs (any two sufficient recursion-depth
budgets, which are artifacts of the embedding) return set-equal unused
collections. -/
theorem c9_deterministic (modules : ModuleDict) (imports : List String)
    (graph : List Pkg) (f1 f2 : Nat) (u1 u2 : List String)
    (h1 : determine_unused modules imports graph f1 = some u1)
    (h2 : determine_unused modules imports graph f2 = some u2) :
    ∀ k, k ∈ u1 ↔ k ∈ u2 := by
  rcases Nat.le_total f1 f2 with hle | hle
  · have h12 := determine_unused_mono modules imports graph f1 f2 hle u1 h1
    rw [h12] at h2
    obtain rfl := Option.some.inj h2
    exact fun k => Iff.rfl
  · have h21 := determine_unused_mono modules imports graph f2 f1 hle u2 h2
    rw [h21] at h1
    obtain rfl := Option.some.inj h1
    exact fun k => Iff.rfl

/-- Witness for C9 at the C1 inputs with budgets `1` and `2`. -/
theorem c9_deterministic_witness :
    ("six" : String) ∈ (["six"] : List String)
      ↔ ("six" : String) ∈ (["six"] : List String) :=
  c9_deterministic
    [("requests", ["requests"]), ("six", ["six"]), ("urllib3", ["urllib3"])]
    ["requests"]
    [⟨"requests", ["urllib3"]⟩, ⟨"six", []⟩, ⟨"urllib3", []⟩] 1 2 ["six"] ["six"]
    (by decide) (by decide) "six"

/-- C10: `get_modules` is not total — on a distribution whose installed
files contain the bare path `__init__.py` (a single segment after
splitting), evaluating `parts[-2]` is out of bounds, so the run dies with
an uncaught index error (`none`) instead of returning a mapping. -/
theorem c10_bare_init_index_error :
    get_modules [⟨"pkg", ["__init__.py"]⟩] = none := by decide
